import Mathlib

/-!
Shallow embedding of the diff-segmentation core of the `neo-reviewer` CLI
(`src/cli/src/diff/parser.rs` and `src/cli/src/commands/diff.rs`),
together with theorems settling the specification claims about it.

Machine integers: the Rust code uses `u32` line counters seeded from
`str::parse::<u32>().unwrap_or(0)` on `\d+` captures.  We model the counters
as `Nat`; the only place a `u32` bound is observable is the header parse,
where `parse` fails (hence yields 0 via `unwrap_or`) when the digit string
exceeds `u32::MAX` — that cutoff is modelled explicitly in `u32OfDigits`.
The line counters themselves are seeded from header values as large as
`u32::MAX`, so their `+= 1` increments can overflow even on tiny inputs;
every counter increment is therefore modelled with an explicit mod 2^32
(`u32succ`), matching the wrap of a release build (a debug build would
panic at the same input).  The `additions`/`deletions` tallies of
`parse_git_diff` start at 0 and grow by at most one per input line, so
they stay below 2^32 for any input of fewer than 2^32 lines and are
modelled as plain `Nat`.

Regex classes: the Rust regexes use Unicode `\s` and `\d`.  `\d` captures
feed `str::parse::<u32>`, which accepts only ASCII digits, so `\d` is
modelled as ASCII digits (a non-ASCII digit in a capture would make the
whole number unparseable, a case the claims do not touch).  `\s` is modelled
by the full Unicode white-space set `isWsChar`.
-/

/-- The character list underlying a string literal. -/
def chars (s : String) : List Char := s.data

/-- `isPre p l` is `str::starts_with`: does `l` start with `p`? -/
def isPre : List Char → List Char → Bool
  | [], _ => true
  | _ :: _, [] => false
  | p :: ps, c :: cs => p == c && isPre ps cs

/-- Strip one trailing carriage return, as Rust's `str::lines` does on each
line that was terminated by `\n`. -/
def stripCr (l : List Char) : List Char :=
  if l.getLast? = some '\r' then l.dropLast else l

/-- Worker for `linesOf`: accumulates the current (reversed) line. -/
def linesAux : List Char → List Char → List (List Char)
  | [], acc => if acc.isEmpty then [] else [acc.reverse]
  | '\n' :: rest, acc => stripCr acc.reverse :: linesAux rest []
  | c :: rest, acc => linesAux rest (c :: acc)

/-- Model of Rust's `str::lines`: split at `\n` (or `\r\n`), final line
ending optional, a final line without `\n` keeps any trailing `\r`. -/
def linesOf (cs : List Char) : List (List Char) := linesAux cs []

/-- Unicode white-space characters, the class matched by the regexes' `\s`. -/
def isWsChar (c : Char) : Bool :=
  c == ' ' || c == '\t' || c == '\n' || c == '\x0b' || c == '\x0c' || c == '\r' ||
  c == '\u0085' || c == '\u00A0' || c == '\u1680' ||
  ('\u2000' ≤ c && c ≤ '\u200A') ||
  c == '\u2028' || c == '\u2029' || c == '\u202F' || c == '\u205F' || c == '\u3000'

/-- Numeric value of an ASCII digit string. -/
def natOfDigits (ds : List Char) : Nat :=
  ds.foldl (fun n c => n * 10 + (c.toNat - 48)) 0

/-- `str::parse::<u32>(..).unwrap_or(0)` on a digit capture: values beyond
`u32::MAX` fail to parse, so `unwrap_or` turns them into 0. -/
def u32OfDigits (ds : List Char) : Nat :=
  let n := natOfDigits ds
  if n < 4294967296 then n else 0

/-- One span group `(\d+)(?:,(\d+))?` of the hunk-header regex: returns the
start digits and the rest of the input after the optional count.  When a
comma is not followed by a digit the optional group does not participate in
the match (no regex backtracking can make it match, since the characters
after a maximal digit run are never `\s`, `+` or `@`). -/
def parseSpan (cs : List Char) : Option (List Char × List Char) :=
  match cs.takeWhile Char.isDigit, cs.dropWhile Char.isDigit with
  | [], _ => none
  | ds, rest =>
    match rest with
    | ',' :: rest2 =>
      match rest2.takeWhile Char.isDigit, rest2.dropWhile Char.isDigit with
      | [], _ => some (ds, rest)
      | _, rest3 => some (ds, rest3)
    | _ => some (ds, rest)

/-- Model of `Regex::captures` for
`^@@\s*-(\d+)(?:,(\d+))?\s*\+(\d+)(?:,(\d+))?\s*@@` followed by reading
captures 1 and 3 through `parse::<u32>().unwrap_or(0)` (captures 2 and 4,
the counts, are never read by the source). -/
def matchHunkHeader (l : List Char) : Option (Nat × Nat) :=
  match l with
  | '@' :: '@' :: r0 =>
    match r0.dropWhile isWsChar with
    | '-' :: r2 =>
      match parseSpan r2 with
      | none => none
      | some (oldDs, r3) =>
        match r3.dropWhile isWsChar with
        | '+' :: r5 =>
          match parseSpan r5 with
          | none => none
          | some (newDs, r6) =>
            match r6.dropWhile isWsChar with
            | '@' :: '@' :: _ => some (u32OfDigits oldDs, u32OfDigits newDs)
            | _ => none
        | _ => none
    | _ => none
  | _ => none

/-- `OldToNewMap` of `src/cli/src/diff/types.rs`. -/
structure OldToNewMap where
  old_line : Nat
  new_line : Nat
deriving DecidableEq

/-- `DeletionGroup` of `src/cli/src/diff/types.rs`. -/
structure DeletionGroup where
  anchor_line : Nat
  old_lines : List String
  old_line_numbers : List Nat
deriving DecidableEq

/-- `ChangeKind` of `src/cli/src/diff/types.rs`. -/
inductive ChangeKind where
  | add
  | delete
  | change
deriving DecidableEq

/-- `ChangeBlock` of `src/cli/src/diff/types.rs`. -/
structure ChangeBlock where
  start_line : Nat
  end_line : Nat
  kind : ChangeKind
  added_lines : List Nat
  changed_lines : List Nat
  deletion_groups : List DeletionGroup
  old_to_new : List OldToNewMap
deriving DecidableEq

/-- `BlockBuilder` of `src/cli/src/diff/parser.rs` (the source field
`initialized` is called `inited` here). -/
structure BlockBuilder where
  start_line : Nat
  end_line : Nat
  added_lines : List Nat
  changed_lines : List Nat
  deletion_groups : List DeletionGroup
  old_to_new : List OldToNewMap
  has_additions : Bool
  has_deletions : Bool
  inited : Bool
deriving DecidableEq

/-- `BlockBuilder::default()`. -/
def emptyBuilder : BlockBuilder :=
  ⟨0, 0, [], [], [], [], false, false, false⟩

/-- `BlockBuilder::ensure_initialized`. -/
def BlockBuilder.ensureInited (b : BlockBuilder) (line : Nat) : BlockBuilder :=
  if b.inited then { b with end_line := line }
  else { b with start_line := line, end_line := line, inited := true }

/-- `BlockBuilder::push_deletion`'s update of `deletion_groups`: append to
the last group when its anchor matches, otherwise push a fresh group. -/
def pushDeletion (anchor : Nat) (oldLine : String) (oldNum : Nat) :
    List DeletionGroup → List DeletionGroup
  | [] => [⟨anchor, [oldLine], [oldNum]⟩]
  | [g] =>
    if g.anchor_line = anchor then
      [⟨g.anchor_line, g.old_lines ++ [oldLine], g.old_line_numbers ++ [oldNum]⟩]
    else
      [g, ⟨anchor, [oldLine], [oldNum]⟩]
  | g :: g2 :: gs => g :: pushDeletion anchor oldLine oldNum (g2 :: gs)

/-- `BlockBuilder::into_change_block`. -/
def BlockBuilder.intoChangeBlock (b : BlockBuilder) : Option ChangeBlock :=
  if !b.inited || (!b.has_additions && !b.has_deletions) then none
  else
    let kind :=
      if b.has_additions && b.has_deletions then ChangeKind.change
      else if b.has_additions then ChangeKind.add
      else ChangeKind.delete
    some ⟨b.start_line, b.end_line, kind, b.added_lines, b.changed_lines,
          b.deletion_groups, b.old_to_new⟩

/-- `if let Some(block) = builder.into_change_block() { blocks.push(block) }`. -/
def flushInto (bs : List ChangeBlock) (b : BlockBuilder) : List ChangeBlock :=
  match b.intoChangeBlock with
  | some blk => bs ++ [blk]
  | none => bs

/-- The body of `parse_patch`'s `-` branch (lines 100–109 of parser.rs). -/
def delStep (n o : Nat) (content : String) (b : BlockBuilder) : BlockBuilder :=
  let b1 := b.ensureInited n
  { b1 with
    has_deletions := true
    deletion_groups := pushDeletion n content o b1.deletion_groups
    old_to_new := b1.old_to_new ++ [⟨o, n⟩] }

/-- The body of `parse_patch`'s `+` branch (lines 110–117 of parser.rs). -/
def addStep (n : Nat) (ic : Bool) (b : BlockBuilder) : BlockBuilder :=
  let b1 := b.ensureInited n
  { b1 with
    has_additions := true
    added_lines := b1.added_lines ++ [n]
    changed_lines := if ic then b1.changed_lines ++ [n] else b1.changed_lines }

/-- The `u32` increment used for the two line counters: the counters are
seeded from header values as large as `u32::MAX = 4294967295`, so the
source's `+= 1` can overflow; a release build wraps modulo 2^32 (a debug
build panics at the same point). -/
def u32succ (n : Nat) : Nat := (n + 1) % 4294967296

/-- Control state of `parse_patch`'s two nested `while` loops: either
scanning for a hunk header, or inside a hunk body with the two line
counters, the in-progress builder, and the `in_change_block` flag. -/
inductive ParseState where
  | outside
  | inside (newNum oldNum : Nat) (b : BlockBuilder) (inChange : Bool)
deriving DecidableEq

/-- One iteration of `parse_patch` over one input line.  The inner loop's
`break` on `@@`/`diff ` lines (which flushes the open block, then lets the
outer loop re-examine the very same line against the header regex) is fused
into the single step on that line. -/
def stepLine (s : List ChangeBlock × ParseState) (l : List Char) :
    List ChangeBlock × ParseState :=
  match s with
  | (bs, ParseState.outside) =>
    match matchHunkHeader l with
    | some (os, ns) => (bs, ParseState.inside ns os emptyBuilder false)
    | none => (bs, ParseState.outside)
  | (bs, ParseState.inside n o b ic) =>
    if isPre (chars "@@") l || isPre (chars "diff ") l then
      match matchHunkHeader l with
      | some (os, ns) => (flushInto bs b, ParseState.inside ns os emptyBuilder false)
      | none => (flushInto bs b, ParseState.outside)
    else if isPre (chars "\\ No newline") l then
      (bs, ParseState.inside n o b ic)
    else
      match l with
      | '-' :: rest =>
        (bs, ParseState.inside n (u32succ o) (delStep n o (String.mk rest) b) true)
      | '+' :: _ => (bs, ParseState.inside (u32succ n) o (addStep n ic b) ic)
      | ' ' :: _ =>
        (flushInto bs b, ParseState.inside (u32succ n) (u32succ o) emptyBuilder false)
      | [] =>
        (flushInto bs b, ParseState.inside (u32succ n) (u32succ o) emptyBuilder false)
      | _ => (bs, ParseState.inside n o b ic)

/-- The flush after the inner loop falls off the end of the input. -/
def finishParse : List ChangeBlock × ParseState → List ChangeBlock
  | (bs, ParseState.outside) => bs
  | (bs, ParseState.inside _ _ b _) => flushInto bs b

/-- `parse_patch` on an already-split line list. -/
def parseLines (ls : List (List Char)) : List ChangeBlock :=
  finishParse (ls.foldl stepLine ([], ParseState.outside))

/-- `parse_patch` on raw character content. -/
def parsePatchChars (cs : List Char) : List ChangeBlock :=
  parseLines (linesOf cs)

/-- `parse_patch` of `src/cli/src/diff/parser.rs`. -/
def parse_patch (s : String) : List ChangeBlock :=
  parsePatchChars s.data

example :
    parse_patch "@@ -1,3 +1,4 @@\n line1\n+added line\n line2\n line3" =
      [⟨2, 2, ChangeKind.add, [2], [], [], []⟩] := by decide

example :
    parse_patch "@@ -1,4 +1,3 @@\n line1\n-deleted line\n line2\n line3" =
      [⟨2, 2, ChangeKind.delete, [], [], [⟨2, ["deleted line"], [2]⟩], [⟨2, 2⟩]⟩] := by
  decide

example :
    parse_patch "@@ -1,3 +1,3 @@\n line1\n-old line\n+new line\n line3" =
      [⟨2, 2, ChangeKind.change, [2], [2], [⟨2, ["old line"], [2]⟩], [⟨2, 2⟩]⟩] := by
  decide

example : parse_patch "" = [] := by decide

example : parse_patch "@@ -1,3 +1,3 @@\n line1\n line2\n line3" = [] := by decide

example :
    (parse_patch "@@ -1,2 +1,2 @@\n-old line\n+new line\n\\ No newline at end of file").map
      (fun b => b.kind) = [ChangeKind.change] := by decide

example :
    (parse_patch "@@ -10000,3 +10001,4 @@\n context\n+added\n more context\n end").map
      (fun b => b.start_line) = [10002] := by decide

example :
    (parse_patch "@@ -1,3 +1,5 @@\n line1\n+added1\n line2\n+added2\n line3").map
      (fun b => b.added_lines) = [[2], [4]] := by decide

/-- `FileStatus` of `src/cli/src/github/types.rs` (the variants used by the
diff splitter). -/
inductive FileStatus where
  | added
  | modified
  | deleted
  | renamed
deriving DecidableEq

/-- `ReviewFile` of `src/cli/src/github/types.rs`, as populated by
`parse_git_diff` (which always leaves `content` as `None`). -/
structure ReviewFile where
  path : String
  status : FileStatus
  additions : Nat
  deletions : Nat
  content : Option String
  change_blocks : List ChangeBlock
deriving DecidableEq

/-- Greedy split for `^diff --git a/(.+) b/(.+)$` after the literal prefix:
the first `(.+)` being greedy, the line is split at the LAST occurrence of
`" b/"` that leaves both captures non-empty.  `pre` holds the (reversed)
characters already passed over. -/
def lastSplit (pre : List Char) : List Char → Option (List Char × List Char)
  | [] => none
  | c :: rest =>
    match lastSplit (c :: pre) rest with
    | some x => some x
    | none =>
      match c, rest with
      | ' ', 'b' :: '/' :: p2 =>
        if pre.isEmpty || p2.isEmpty then none else some (pre.reverse, p2)
      | _, _ => none

/-- Model of `file_header_re`, `^diff --git a/(.+) b/(.+)$`, returning
capture 2 (the post-image path), the only capture the source reads. -/
def matchFileHeader (l : List Char) : Option String :=
  if isPre (chars "diff --git a/") l then
    match lastSplit [] (l.drop 13) with
    | some (_, p2) => some (String.mk p2)
    | none => none
  else none

/-- Model of `status_re`, `^(new file|deleted file|renamed)`, combined with
the `match` that maps the capture to a `FileStatus`. -/
def matchStatus (l : List Char) : Option FileStatus :=
  if isPre (chars "new file") l then some FileStatus.added
  else if isPre (chars "deleted file") l then some FileStatus.deleted
  else if isPre (chars "renamed") l then some FileStatus.renamed
  else none

/-- Model of `additions_re`, `^\+[^+]`: a `+` followed by at least one
character that is not `+`. -/
def isAddLine (l : List Char) : Bool :=
  match l with
  | '+' :: c :: _ => c != '+'
  | _ => false

/-- Model of `deletions_re`, `^-[^-]`: a `-` followed by at least one
character that is not `-`. -/
def isDelLine (l : List Char) : Bool :=
  match l with
  | '-' :: c :: _ => c != '-'
  | _ => false

/-- The status-scan loop of `parse_git_diff` (lines 300–313 of
commands/diff.rs): walk lines until the next `diff --git` or the first
hunk header, overwriting `status` on every status-marker line seen.
Returns the final status and the unconsumed suffix (which still starts
with the breaking line, if any). -/
def statusUpd (st : FileStatus) (l : List Char) : FileStatus :=
  match matchStatus l with
  | some s => s
  | none => st

def scanStatus (st : FileStatus) : List (List Char) → FileStatus × List (List Char)
  | [] => (st, [])
  | l :: rest =>
    if isPre (chars "diff --git") l then (st, l :: rest)
    else
      let st' := statusUpd st l
      if isPre (chars "@@") l then (st', l :: rest)
      else scanStatus st' rest

/-- The patch-collection loop of `parse_git_diff` (lines 316–331): gather
lines until the next `diff --git`, tallying `additions`/`deletions` with
the two count regexes.  Returns (patch lines, additions, deletions,
remaining input). -/
def collectPatch : List (List Char) → List (List Char) × Nat × Nat × List (List Char)
  | [] => ([], 0, 0, [])
  | l :: rest =>
    if isPre (chars "diff --git") l then ([], 0, 0, l :: rest)
    else
      match collectPatch rest with
      | (pls, a, d, rem) =>
        if isAddLine l then (l :: pls, a + 1, d, rem)
        else if isDelLine l then (l :: pls, a, d + 1, rem)
        else (l :: pls, a, d, rem)

/-- Worker for `parseGitDiffLines`.  The Rust outer loop advances the
cursor by at least one line per iteration, so running it with `fuel`
initialised to the number of input lines never exhausts the fuel: each
recursive call is on a strict suffix of the current input. -/
def parseGitDiffAux : Nat → List (List Char) → List ReviewFile
  | 0, _ => []
  | _, [] => []
  | fuel + 1, l :: rest =>
    match matchFileHeader l with
    | some path =>
      let s := scanStatus FileStatus.modified rest
      let c := collectPatch s.2
      let blocks := parsePatchChars (List.intercalate ['\n'] c.1)
      let tail := parseGitDiffAux fuel c.2.2.2
      if blocks.isEmpty then tail
      else ⟨path, s.1, c.2.1, c.2.2.1, none, blocks⟩ :: tail
    | none => parseGitDiffAux fuel rest

/-- `parse_git_diff` of `src/cli/src/commands/diff.rs` on an already-split
line list: scan for file headers; for each, run the status scan, collect
the patch body and its `+`/`-` tallies, re-join the body with `\n` and hand
it to `parse_patch`, and keep the file only if it produced change blocks. -/
def parseGitDiffLines (ls : List (List Char)) : List ReviewFile :=
  parseGitDiffAux ls.length ls

/-- `parse_git_diff` on raw diff output.  The Rust function returns
`Result`, but its only fallible steps are the four regex compilations,
which always succeed; the parse itself never errors. -/
def parse_git_diff (s : String) : List ReviewFile :=
  parseGitDiffLines (linesOf s.data)

example :
    parse_git_diff "diff --git a/test.lua b/test.lua\nindex abc123..def456 100644\n--- a/test.lua\n+++ b/test.lua\n@@ -1,3 +1,4 @@\n line1\n+added line\n line2\n line3" =
      [⟨"test.lua", FileStatus.modified, 1, 0, none,
        [⟨2, 2, ChangeKind.add, [2], [], [], []⟩]⟩] := by decide

example :
    (parse_git_diff "diff --git a/new.lua b/new.lua\nnew file mode 100644\nindex 0000000..abc123\n--- /dev/null\n+++ b/new.lua\n@@ -0,0 +1,3 @@\n+line1\n+line2\n+line3").map
      (fun f => (f.path, f.status, f.additions)) =
      [("new.lua", FileStatus.added, 3)] := by decide

example :
    (parse_git_diff "diff --git a/old.lua b/old.lua\ndeleted file mode 100644\nindex abc123..0000000\n--- a/old.lua\n+++ /dev/null\n@@ -1,3 +0,0 @@\n-line1\n-line2\n-line3").map
      (fun f => (f.path, f.status, f.deletions)) =
      [("old.lua", FileStatus.deleted, 3)] := by decide

example :
    (parse_git_diff "diff --git a/file1.lua b/file1.lua\nindex abc..def 100644\n--- a/file1.lua\n+++ b/file1.lua\n@@ -1,2 +1,3 @@\n line1\n+added\n line2\ndiff --git a/file2.rs b/file2.rs\nindex 123..456 100644\n--- a/file2.rs\n+++ b/file2.rs\n@@ -1,3 +1,2 @@\n line1\n-removed\n line3").map
      (fun f => f.path) = ["file1.lua", "file2.rs"] := by decide

example : parse_git_diff "" = [] := by decide

/-- Anchors of a deletion-group list, in order. -/
def anchorsOf (gs : List DeletionGroup) : List Nat :=
  gs.map (fun g => g.anchor_line)

/-- Total number of deleted lines recorded across a deletion-group list. -/
def sumOldLines (gs : List DeletionGroup) : Nat :=
  (gs.map (fun g => g.old_lines.length)).sum

theorem sumOldLines_pushDeletion (a : Nat) (x : String) (y : Nat) :
    ∀ gs, sumOldLines (pushDeletion a x y gs) = sumOldLines gs + 1
  | [] => by simp [pushDeletion, sumOldLines]
  | [g] => by
    by_cases h : g.anchor_line = a <;> simp [pushDeletion, sumOldLines, h]
  | g :: g2 :: gs => by
    have ih := sumOldLines_pushDeletion a x y (g2 :: gs)
    simp only [pushDeletion, sumOldLines, List.map_cons, List.sum_cons] at ih ⊢
    omega

theorem anchorsOf_pushDeletion (a : Nat) (x : String) (y : Nat) :
    ∀ gs, anchorsOf (pushDeletion a x y gs) =
      if (anchorsOf gs).getLast? = some a then anchorsOf gs
      else anchorsOf gs ++ [a]
  | [] => by simp [pushDeletion, anchorsOf]
  | [g] => by
    by_cases h : g.anchor_line = a <;>
      simp [pushDeletion, anchorsOf, h]
  | g :: g2 :: gs => by
    have ih := anchorsOf_pushDeletion a x y (g2 :: gs)
    simp only [anchorsOf, List.map_cons] at ih ⊢
    simp only [pushDeletion, List.map_cons, ih, List.getLast?_cons_cons]
    by_cases h : (g2.anchor_line :: List.map (fun g => g.anchor_line) gs).getLast? = some a
    · rw [if_pos h, if_pos h]
    · rw [if_neg h, if_neg h]
      simp

theorem chain_pushDeletion (a : Nat) (x : String) (y : Nat) (gs : List DeletionGroup)
    (hchain : List.Chain' (· < ·) (anchorsOf gs))
    (hlast : ∀ m, (anchorsOf gs).getLast? = some m → m ≤ a) :
    List.Chain' (· < ·) (anchorsOf (pushDeletion a x y gs)) ∧
      (anchorsOf (pushDeletion a x y gs)).getLast? = some a := by
  rw [anchorsOf_pushDeletion]
  split
  next h => exact ⟨hchain, h⟩
  next h =>
    refine ⟨List.chain'_append.mpr ⟨hchain, List.chain'_singleton a, ?_⟩, ?_⟩
    · intro m hm b hb
      simp only [List.head?_cons, Option.mem_def, Option.some.injEq] at hb
      subst hb
      have hme : m ≤ a := hlast m hm
      rcases lt_or_eq_of_le hme with h1 | h1
      · exact h1
      · exact absurd (by rw [← h1] at h ⊢; exact hm) h
    · simp

/-- The builder invariant maintained throughout a hunk body, where `n` is
the current new-file counter. -/
def BuilderInv (n : Nat) (b : BlockBuilder) : Prop :=
  b.has_additions = !b.added_lines.isEmpty ∧
  b.has_deletions = !b.deletion_groups.isEmpty ∧
  b.old_to_new.length = sumOldLines b.deletion_groups ∧
  (b.inited = true → b.start_line ≤ b.end_line ∧ b.end_line ≤ n) ∧
  List.Chain' (· < ·) (anchorsOf b.deletion_groups) ∧
  (∀ m, (anchorsOf b.deletion_groups).getLast? = some m → m ≤ n)

/-- Structural well-formedness of every emitted `ChangeBlock`. -/
def GoodBlock (blk : ChangeBlock) : Prop :=
  (blk.kind = ChangeKind.add ↔ blk.added_lines ≠ [] ∧ blk.deletion_groups = []) ∧
  (blk.kind = ChangeKind.delete ↔ blk.deletion_groups ≠ [] ∧ blk.added_lines = []) ∧
  (blk.kind = ChangeKind.change ↔ blk.added_lines ≠ [] ∧ blk.deletion_groups ≠ []) ∧
  blk.old_to_new.length = sumOldLines blk.deletion_groups ∧
  blk.start_line ≤ blk.end_line ∧
  List.Chain' (· < ·) (anchorsOf blk.deletion_groups)

theorem emptyBuilder_inv (n : Nat) : BuilderInv n emptyBuilder := by
  refine ⟨rfl, rfl, rfl, ?_, ?_, ?_⟩
  · intro h; exact absurd h (by simp [emptyBuilder])
  · simp [emptyBuilder, anchorsOf]
  · intro m hm; simp [emptyBuilder, anchorsOf] at hm

theorem intoChangeBlock_good {n : Nat} {b : BlockBuilder} {blk : ChangeBlock}
    (hinv : BuilderInv n b) (h : b.intoChangeBlock = some blk) : GoodBlock blk := by
  obtain ⟨ha, hd, hlen, hse, hchain, -⟩ := hinv
  have hAiff : b.has_additions = true ↔ b.added_lines ≠ [] := by
    rw [ha]; cases b.added_lines <;> simp
  have hDiff : b.has_deletions = true ↔ b.deletion_groups ≠ [] := by
    rw [hd]; cases b.deletion_groups <;> simp
  unfold BlockBuilder.intoChangeBlock at h
  split at h
  · exact absurd h (by simp)
  next hguard =>
    simp only [Bool.or_eq_true, Bool.not_eq_true', Bool.and_eq_true, not_or] at hguard
    obtain ⟨hinited, hflags⟩ := hguard
    have hin : b.inited = true := by
      cases hb : b.inited
      · exact absurd hb hinited
      · rfl
    simp only [Option.some.injEq] at h
    subst h
    cases hA : b.has_additions <;> cases hD : b.has_deletions
    · -- neither flag: excluded by the guard
      exact absurd ⟨hA, hD⟩ hflags
    · -- deletions only
      have h2 : b.deletion_groups ≠ [] := hDiff.mp hD
      have h1 : b.added_lines = [] := by
        by_contra hc
        rw [hAiff.mpr hc] at hA
        exact Bool.noConfusion hA
      unfold GoodBlock
      exact ⟨by simp [hA, hD, h1], by simp [hA, hD, h1, h2],
        by simp [hA, hD, h1], hlen, (hse hin).1, hchain⟩
    · -- additions only
      have h1 : b.added_lines ≠ [] := hAiff.mp hA
      have h2 : b.deletion_groups = [] := by
        by_contra hc
        rw [hDiff.mpr hc] at hD
        exact Bool.noConfusion hD
      unfold GoodBlock
      exact ⟨by simp [hA, hD, h1, h2], by simp [hA, hD, h2],
        by simp [hA, hD, h2], hlen, (hse hin).1, hchain⟩
    · -- both
      have h1 : b.added_lines ≠ [] := hAiff.mp hA
      have h2 : b.deletion_groups ≠ [] := hDiff.mp hD
      unfold GoodBlock
      exact ⟨by simp [hA, hD, h2], by simp [hA, hD, h1], by simp [hA, hD, h1, h2],
        hlen, (hse hin).1, hchain⟩

theorem flushInto_good {n : Nat} {bs : List ChangeBlock} {b : BlockBuilder}
    (hgood : ∀ blk ∈ bs, GoodBlock blk) (hinv : BuilderInv n b) :
    ∀ blk ∈ flushInto bs b, GoodBlock blk := by
  intro blk hmem
  unfold flushInto at hmem
  split at hmem
  next h =>
    rcases List.mem_append.mp hmem with h1 | h1
    · exact hgood blk h1
    · simp only [List.mem_singleton] at h1
      subst h1
      exact intoChangeBlock_good hinv h
  next => exact hgood blk hmem

theorem pushDeletion_ne_nil (a : Nat) (x : String) (y : Nat) :
    ∀ gs, pushDeletion a x y gs ≠ []
  | [] => by simp [pushDeletion]
  | [g] => by by_cases h : g.anchor_line = a <;> simp [pushDeletion, h]
  | _ :: _ :: _ => by simp [pushDeletion]

theorem ensureInited_proj (b : BlockBuilder) (n : Nat) :
    (b.ensureInited n).added_lines = b.added_lines ∧
    (b.ensureInited n).changed_lines = b.changed_lines ∧
    (b.ensureInited n).deletion_groups = b.deletion_groups ∧
    (b.ensureInited n).old_to_new = b.old_to_new ∧
    (b.ensureInited n).has_additions = b.has_additions ∧
    (b.ensureInited n).has_deletions = b.has_deletions ∧
    (b.ensureInited n).inited = true := by
  unfold BlockBuilder.ensureInited
  split
  next h => exact ⟨rfl, rfl, rfl, rfl, rfl, rfl, h⟩
  next => exact ⟨rfl, rfl, rfl, rfl, rfl, rfl, rfl⟩

theorem ensureInited_bounds {n : Nat} {b : BlockBuilder} (hinv : BuilderInv n b) :
    (b.ensureInited n).start_line ≤ (b.ensureInited n).end_line ∧
    (b.ensureInited n).end_line ≤ n := by
  obtain ⟨-, -, -, hse, -, -⟩ := hinv
  unfold BlockBuilder.ensureInited
  split
  next h => exact ⟨le_trans (hse h).1 (hse h).2, le_refl n⟩
  next => exact ⟨le_refl n, le_refl n⟩

theorem delStep_inv {n : Nat} {b : BlockBuilder} (o : Nat) (c : String)
    (hinv : BuilderInv n b) : BuilderInv n (delStep n o c b) := by
  obtain ⟨hp1, hp2, hp3, hp4, hp5, hp6, hp7⟩ := ensureInited_proj b n
  have hb := ensureInited_bounds hinv
  obtain ⟨ha, hd, hlen, hse, hchain, hlast⟩ := hinv
  have hpush := chain_pushDeletion n c o b.deletion_groups hchain hlast
  have hne := pushDeletion_ne_nil n c o b.deletion_groups
  refine ⟨?_, ?_, ?_, ?_, ?_, ?_⟩
  · show (b.ensureInited n).has_additions = !(b.ensureInited n).added_lines.isEmpty
    rw [hp5, hp1]; exact ha
  · show true = !(pushDeletion n c o (b.ensureInited n).deletion_groups).isEmpty
    rw [hp3]
    cases hg : pushDeletion n c o b.deletion_groups
    · exact absurd hg hne
    · rfl
  · show ((b.ensureInited n).old_to_new ++ [OldToNewMap.mk o n]).length =
      sumOldLines (pushDeletion n c o (b.ensureInited n).deletion_groups)
    rw [hp3, hp4, List.length_append, sumOldLines_pushDeletion, hlen]
    rfl
  · intro hx
    exact hb
  · show List.Chain' (· < ·) (anchorsOf (pushDeletion n c o (b.ensureInited n).deletion_groups))
    rw [hp3]; exact hpush.1
  · intro m hm
    have hm2 : (anchorsOf (pushDeletion n c o (b.ensureInited n).deletion_groups)).getLast? =
        some m := hm
    rw [hp3, hpush.2] at hm2
    simp only [Option.some.injEq] at hm2
    omega

theorem addStep_inv {n : Nat} {b : BlockBuilder} (ic : Bool)
    (hinv : BuilderInv n b) : BuilderInv (n + 1) (addStep n ic b) := by
  obtain ⟨hp1, hp2, hp3, hp4, hp5, hp6, hp7⟩ := ensureInited_proj b n
  have hb := ensureInited_bounds hinv
  obtain ⟨ha, hd, hlen, hse, hchain, hlast⟩ := hinv
  refine ⟨?_, ?_, ?_, ?_, ?_, ?_⟩
  · show true = !((b.ensureInited n).added_lines ++ [n]).isEmpty
    simp
  · show (b.ensureInited n).has_deletions = !(b.ensureInited n).deletion_groups.isEmpty
    rw [hp6, hp3]; exact hd
  · show (b.ensureInited n).old_to_new.length =
      sumOldLines (b.ensureInited n).deletion_groups
    rw [hp3, hp4]; exact hlen
  · intro hx
    exact ⟨hb.1, le_trans hb.2 (Nat.le_succ n)⟩
  · show List.Chain' (· < ·) (anchorsOf (b.ensureInited n).deletion_groups)
    rw [hp3]; exact hchain
  · intro m hm
    have hm2 : (anchorsOf (b.ensureInited n).deletion_groups).getLast? = some m := hm
    rw [hp3] at hm2
    exact le_trans (hlast m hm2) (Nat.le_succ n)

/-- The counter-insensitive half of the builder invariant: the two flags
mirror the emptiness of the corresponding lists, and `old_to_new` stays in
step with the deletion groups.  It holds regardless of `u32` counter
wraps. -/
def KindInv (b : BlockBuilder) : Prop :=
  b.has_additions = !b.added_lines.isEmpty ∧
  b.has_deletions = !b.deletion_groups.isEmpty ∧
  b.old_to_new.length = sumOldLines b.deletion_groups

/-- The counter-insensitive half of `GoodBlock`. -/
def GoodKind (blk : ChangeBlock) : Prop :=
  (blk.kind = ChangeKind.add ↔ blk.added_lines ≠ [] ∧ blk.deletion_groups = []) ∧
  (blk.kind = ChangeKind.delete ↔ blk.deletion_groups ≠ [] ∧ blk.added_lines = []) ∧
  (blk.kind = ChangeKind.change ↔ blk.added_lines ≠ [] ∧ blk.deletion_groups ≠ []) ∧
  blk.old_to_new.length = sumOldLines blk.deletion_groups

theorem intoChangeBlock_kind {b : BlockBuilder} {blk : ChangeBlock}
    (hinv : KindInv b) (h : b.intoChangeBlock = some blk) : GoodKind blk := by
  obtain ⟨ha, hd, hlen⟩ := hinv
  have hAiff : b.has_additions = true ↔ b.added_lines ≠ [] := by
    rw [ha]; cases b.added_lines <;> simp
  have hDiff : b.has_deletions = true ↔ b.deletion_groups ≠ [] := by
    rw [hd]; cases b.deletion_groups <;> simp
  unfold BlockBuilder.intoChangeBlock at h
  split at h
  · exact absurd h (by simp)
  next hguard =>
    simp only [Bool.or_eq_true, Bool.not_eq_true', Bool.and_eq_true, not_or] at hguard
    obtain ⟨hinited, hflags⟩ := hguard
    simp only [Option.some.injEq] at h
    subst h
    cases hA : b.has_additions <;> cases hD : b.has_deletions
    · exact absurd ⟨hA, hD⟩ hflags
    · have h2 : b.deletion_groups ≠ [] := hDiff.mp hD
      have h1 : b.added_lines = [] := by
        by_contra hc
        rw [hAiff.mpr hc] at hA
        exact Bool.noConfusion hA
      unfold GoodKind
      exact ⟨by simp [hA, hD, h1], by simp [hA, hD, h1, h2],
        by simp [hA, hD, h1], hlen⟩
    · have h1 : b.added_lines ≠ [] := hAiff.mp hA
      have h2 : b.deletion_groups = [] := by
        by_contra hc
        rw [hDiff.mpr hc] at hD
        exact Bool.noConfusion hD
      unfold GoodKind
      exact ⟨by simp [hA, hD, h1, h2], by simp [hA, hD, h2],
        by simp [hA, hD, h2], hlen⟩
    · have h1 : b.added_lines ≠ [] := hAiff.mp hA
      have h2 : b.deletion_groups ≠ [] := hDiff.mp hD
      unfold GoodKind
      exact ⟨by simp [hA, hD, h2], by simp [hA, hD, h1],
        by simp [hA, hD, h1, h2], hlen⟩

theorem flushInto_kind {bs : List ChangeBlock} {b : BlockBuilder}
    (hgood : ∀ blk ∈ bs, GoodKind blk) (hinv : KindInv b) :
    ∀ blk ∈ flushInto bs b, GoodKind blk := by
  intro blk hmem
  unfold flushInto at hmem
  split at hmem
  next h =>
    rcases List.mem_append.mp hmem with h1 | h1
    · exact hgood blk h1
    · simp only [List.mem_singleton] at h1
      subst h1
      exact intoChangeBlock_kind hinv h
  next => exact hgood blk hmem

theorem emptyBuilder_kind : KindInv emptyBuilder := ⟨rfl, rfl, rfl⟩

theorem delStep_kind {b : BlockBuilder} (n o : Nat) (c : String)
    (hinv : KindInv b) : KindInv (delStep n o c b) := by
  obtain ⟨hp1, hp2, hp3, hp4, hp5, hp6, hp7⟩ := ensureInited_proj b n
  obtain ⟨ha, hd, hlen⟩ := hinv
  have hne := pushDeletion_ne_nil n c o b.deletion_groups
  refine ⟨?_, ?_, ?_⟩
  · show (b.ensureInited n).has_additions = !(b.ensureInited n).added_lines.isEmpty
    rw [hp5, hp1]; exact ha
  · show true = !(pushDeletion n c o (b.ensureInited n).deletion_groups).isEmpty
    rw [hp3]
    cases hg : pushDeletion n c o b.deletion_groups
    · exact absurd hg hne
    · rfl
  · show ((b.ensureInited n).old_to_new ++ [OldToNewMap.mk o n]).length =
      sumOldLines (pushDeletion n c o (b.ensureInited n).deletion_groups)
    rw [hp3, hp4, List.length_append, sumOldLines_pushDeletion, hlen]
    rfl

theorem addStep_kind {b : BlockBuilder} (n : Nat) (ic : Bool)
    (hinv : KindInv b) : KindInv (addStep n ic b) := by
  obtain ⟨hp1, hp2, hp3, hp4, hp5, hp6, hp7⟩ := ensureInited_proj b n
  obtain ⟨ha, hd, hlen⟩ := hinv
  refine ⟨?_, ?_, ?_⟩
  · show true = !((b.ensureInited n).added_lines ++ [n]).isEmpty
    simp
  · show (b.ensureInited n).has_deletions = !(b.ensureInited n).deletion_groups.isEmpty
    rw [hp6, hp3]; exact hd
  · show (b.ensureInited n).old_to_new.length =
      sumOldLines (b.ensureInited n).deletion_groups
    rw [hp3, hp4]; exact hlen

/-- The counter-insensitive invariant carried through `parse_patch`'s main
loop: it survives `u32` counter wraps, so it holds unconditionally. -/
def KindState : List ChangeBlock × ParseState → Prop
  | (bs, ParseState.outside) => ∀ blk ∈ bs, GoodKind blk
  | (bs, ParseState.inside _ _ b _) => (∀ blk ∈ bs, GoodKind blk) ∧ KindInv b

theorem stepLine_kind (s : List ChangeBlock × ParseState) (l : List Char)
    (h : KindState s) : KindState (stepLine s l) := by
  obtain ⟨bs, st⟩ := s
  cases st with
  | outside =>
    simp only [stepLine]
    cases hm : matchHunkHeader l with
    | some p =>
      obtain ⟨os, ns⟩ := p
      exact ⟨h, emptyBuilder_kind⟩
    | none => exact h
  | inside n o b ic =>
    obtain ⟨hgood, hinv⟩ := h
    simp only [stepLine]
    by_cases h1 : (isPre (chars "@@") l || isPre (chars "diff ") l) = true
    · rw [if_pos h1]
      cases hm : matchHunkHeader l with
      | some p =>
        obtain ⟨os, ns⟩ := p
        exact ⟨flushInto_kind hgood hinv, emptyBuilder_kind⟩
      | none => exact flushInto_kind hgood hinv
    · rw [if_neg h1]
      by_cases h2 : isPre (chars "\\ No newline") l = true
      · rw [if_pos h2]
        exact ⟨hgood, hinv⟩
      · rw [if_neg h2]
        split
        · exact ⟨hgood, delStep_kind n o _ hinv⟩
        · exact ⟨hgood, addStep_kind n ic hinv⟩
        · exact ⟨flushInto_kind hgood hinv, emptyBuilder_kind⟩
        · exact ⟨flushInto_kind hgood hinv, emptyBuilder_kind⟩
        · exact ⟨hgood, hinv⟩

theorem foldl_kindState (ls : List (List Char)) (s : List ChangeBlock × ParseState)
    (h : KindState s) : KindState (ls.foldl stepLine s) := by
  induction ls generalizing s with
  | nil => exact h
  | cons l rest ih => exact ih _ (stepLine_kind s l h)

theorem parseLines_goodKind (ls : List (List Char)) :
    ∀ blk ∈ parseLines ls, GoodKind blk := by
  have h := foldl_kindState ls ([], ParseState.outside)
    (by intro blk hb; exact absurd hb (List.not_mem_nil blk))
  unfold parseLines
  rcases hr : ls.foldl stepLine ([], ParseState.outside) with ⟨bs, st⟩
  rw [hr] at h
  cases st with
  | outside => exact h
  | inside n o b ic => exact flushInto_kind h.1 h.2

theorem parse_patch_goodKind (s : String) :
    ∀ blk ∈ parse_patch s, GoodKind blk :=
  parseLines_goodKind (linesOf s.data)

/-- `headerSmall k l`: if `l` matches the hunk-header regex, both start
captures leave at least `k` increments of headroom below 2^32, so no `u32`
counter seeded by this header can wrap within the next `k` lines.  Real
diffs satisfy this for `k` = the input's line count with room to spare. -/
def headerSmall (k : Nat) (l : List Char) : Bool :=
  match matchHunkHeader l with
  | some (os, ns) =>
    decide (os + k < 4294967296) && decide (ns + k < 4294967296)
  | none => true

theorem headerSmall_some {k : Nat} {l : List Char} {os ns : Nat}
    (h : headerSmall k l = true) (hm : matchHunkHeader l = some (os, ns)) :
    os + k < 4294967296 ∧ ns + k < 4294967296 := by
  unfold headerSmall at h
  rw [hm] at h
  simpa using h

theorem headerSmall_mono {k N : Nat} (hkN : k ≤ N) (l : List Char)
    (h : headerSmall N l = true) : headerSmall k l = true := by
  unfold headerSmall at h ⊢
  cases hm : matchHunkHeader l with
  | none => rfl
  | some p =>
    obtain ⟨os, ns⟩ := p
    rw [hm] at h
    simp only [Bool.and_eq_true, decide_eq_true_eq] at h ⊢
    omega

/-- The counter-sensitive invariant: the full builder invariant plus
enough headroom (`k` = lines still to process) for both `u32` counters
never to wrap. -/
def BoundState (k : Nat) : List ChangeBlock × ParseState → Prop
  | (bs, ParseState.outside) => ∀ blk ∈ bs, GoodBlock blk
  | (bs, ParseState.inside n o b _) =>
    (∀ blk ∈ bs, GoodBlock blk) ∧ BuilderInv n b ∧
      n + k < 4294967296 ∧ o + k < 4294967296

theorem stepLine_bound (k : Nat) (s : List ChangeBlock × ParseState)
    (l : List Char) (hl : headerSmall k l = true)
    (h : BoundState (k + 1) s) : BoundState k (stepLine s l) := by
  obtain ⟨bs, st⟩ := s
  cases st with
  | outside =>
    simp only [stepLine]
    cases hm : matchHunkHeader l with
    | some p =>
      obtain ⟨os, ns⟩ := p
      have hb := headerSmall_some hl hm
      exact ⟨h, emptyBuilder_inv ns, hb.2, hb.1⟩
    | none => exact h
  | inside n o b ic =>
    obtain ⟨hgood, hinv, hn, ho⟩ := h
    simp only [stepLine]
    by_cases h1 : (isPre (chars "@@") l || isPre (chars "diff ") l) = true
    · rw [if_pos h1]
      cases hm : matchHunkHeader l with
      | some p =>
        obtain ⟨os, ns⟩ := p
        have hb := headerSmall_some hl hm
        exact ⟨flushInto_good hgood hinv, emptyBuilder_inv ns, hb.2, hb.1⟩
      | none => exact flushInto_good hgood hinv
    · rw [if_neg h1]
      have hsn : u32succ n = n + 1 := by
        unfold u32succ
        exact Nat.mod_eq_of_lt (by omega)
      have hso : u32succ o = o + 1 := by
        unfold u32succ
        exact Nat.mod_eq_of_lt (by omega)
      by_cases h2 : isPre (chars "\\ No newline") l = true
      · rw [if_pos h2]
        exact ⟨hgood, hinv, by omega, by omega⟩
      · rw [if_neg h2]
        split
        · exact ⟨hgood, delStep_inv o _ hinv, by omega, by rw [hso]; omega⟩
        · refine ⟨hgood, ?_, ?_, by omega⟩
          · rw [hsn]
            exact addStep_inv ic hinv
          · rw [hsn]; omega
        · exact ⟨flushInto_good hgood hinv, emptyBuilder_inv _,
            by rw [hsn]; omega, by rw [hso]; omega⟩
        · exact ⟨flushInto_good hgood hinv, emptyBuilder_inv _,
            by rw [hsn]; omega, by rw [hso]; omega⟩
        · exact ⟨hgood, hinv, by omega, by omega⟩

theorem foldl_bound (N : Nat) :
    ∀ (ls : List (List Char)) (s : List ChangeBlock × ParseState),
      (∀ l ∈ ls, headerSmall N l = true) →
      ls.length ≤ N →
      BoundState ls.length s →
      BoundState 0 (ls.foldl stepLine s)
  | [], s, _, _, h => h
  | l :: rest, s, hH, hlen, h => by
    simp only [List.foldl_cons]
    have hlen2 : rest.length + 1 ≤ N := by simpa using hlen
    have hstep := stepLine_bound rest.length s l
      (headerSmall_mono (by omega) l (hH l (List.mem_cons_self l rest))) h
    exact foldl_bound N rest (stepLine s l)
      (fun x hx => hH x (List.mem_cons_of_mem l hx)) (by omega) hstep

theorem parseLines_goodBounds (ls : List (List Char))
    (hH : ∀ l ∈ ls, headerSmall ls.length l = true) :
    ∀ blk ∈ parseLines ls, GoodBlock blk := by
  have h := foldl_bound ls.length ls ([], ParseState.outside) hH (le_refl _)
    (by intro blk hb; exact absurd hb (List.not_mem_nil blk))
  unfold parseLines
  rcases hr : ls.foldl stepLine ([], ParseState.outside) with ⟨bs, st⟩
  rw [hr] at h
  cases st with
  | outside => exact h
  | inside n o b ic => exact flushInto_good h.1 h.2.1

/-- Total number of deleted lines recorded in a block's deletion groups. -/
def blockDeletions (blk : ChangeBlock) : Nat :=
  sumOldLines blk.deletion_groups

/-- New-file counter of a parse state, when inside a hunk body. -/
def newPtr : ParseState → Option Nat
  | ParseState.outside => none
  | ParseState.inside n _ _ _ => some n

/-- C2: every block emitted by `parse_patch` has at least one addition or
one deletion, and its `kind` is exactly determined by which of the two it
contains: `add` iff additions only, `delete` iff deletions only, `change`
iff both. -/
theorem parse_patch_kind_characterized (s : String) (blk : ChangeBlock)
    (h : blk ∈ parse_patch s) :
    (blk.added_lines ≠ [] ∨ blk.deletion_groups ≠ []) ∧
    (blk.kind = ChangeKind.add ↔ blk.added_lines ≠ [] ∧ blk.deletion_groups = []) ∧
    (blk.kind = ChangeKind.delete ↔ blk.deletion_groups ≠ [] ∧ blk.added_lines = []) ∧
    (blk.kind = ChangeKind.change ↔ blk.added_lines ≠ [] ∧ blk.deletion_groups ≠ []) := by
  obtain ⟨h1, h2, h3, -⟩ := parse_patch_goodKind s blk h
  refine ⟨?_, h1, h2, h3⟩
  cases hk : blk.kind
  · exact Or.inl (h1.mp hk).1
  · exact Or.inr (h2.mp hk).1
  · exact Or.inl (h3.mp hk).1

theorem parse_patch_kind_characterized_witness :
    ((⟨2, 2, ChangeKind.add, [2], [], [], []⟩ : ChangeBlock) ∈
        parse_patch "@@ -1,3 +1,4 @@\n line1\n+added line\n line2") ∧
    ((⟨2, 2, ChangeKind.add, [2], [], [], []⟩ : ChangeBlock).kind = ChangeKind.add ↔
      (⟨2, 2, ChangeKind.add, [2], [], [], []⟩ : ChangeBlock).added_lines ≠ [] ∧
      (⟨2, 2, ChangeKind.add, [2], [], [], []⟩ : ChangeBlock).deletion_groups = []) :=
  ⟨by decide,
   (parse_patch_kind_characterized "@@ -1,3 +1,4 @@\n line1\n+added line\n line2"
      ⟨2, 2, ChangeKind.add, [2], [], [], []⟩ (by decide)).2.1⟩

/-- C8: in every block emitted by `parse_patch`, the `old_to_new` list has
exactly one entry per deleted line: its length is the sum over the block's
deletion groups of the number of `old_lines` entries. -/
theorem parse_patch_old_to_new_length (s : String) (blk : ChangeBlock)
    (h : blk ∈ parse_patch s) :
    blk.old_to_new.length = sumOldLines blk.deletion_groups :=
  (parse_patch_goodKind s blk h).2.2.2

theorem parse_patch_old_to_new_length_witness :
    (⟨2, 2, ChangeKind.delete, [], [], [⟨2, ["deleted1", "deleted2"], [2, 3]⟩],
        [⟨2, 2⟩, ⟨3, 2⟩]⟩ : ChangeBlock).old_to_new.length =
      sumOldLines (⟨2, 2, ChangeKind.delete, [], [],
        [⟨2, ["deleted1", "deleted2"], [2, 3]⟩],
        [⟨2, 2⟩, ⟨3, 2⟩]⟩ : ChangeBlock).deletion_groups :=
  parse_patch_old_to_new_length "@@ -1,4 +1,2 @@\n line1\n-deleted1\n-deleted2\n line2"
    ⟨2, 2, ChangeKind.delete, [], [], [⟨2, ["deleted1", "deleted2"], [2, 3]⟩],
      [⟨2, 2⟩, ⟨3, 2⟩]⟩ (by decide)

/-- C9 counterexample: a hunk header may seed the new-file counter at
`u32::MAX = 4294967295`; two additions then wrap it to 0 (as the release
binary does; a debug build panics), and the emitted block has
`start_line = 4294967295 > end_line = 0`, falsifying the claimed
invariant. -/
theorem start_end_wrap_counterexample :
    parse_patch "@@ -1 +4294967295 @@\n+a\n+b" =
      [⟨4294967295, 0, ChangeKind.add, [4294967295, 0], [], [], []⟩] ∧
    ¬(4294967295 : Nat) ≤ 0 := by decide

/-- C9 (amended): every block emitted by `parse_patch` has
`start_line ≤ end_line` and strictly increasing deletion-group anchors (so
no two adjacent groups share an anchor), provided no `u32` line counter
wraps during the parse — guaranteed whenever each hunk header's start
values plus the input's line count stay below 2^32 (`headerSmall`), which
holds for every real diff. -/
theorem parse_patch_bounds_and_anchors (s : String)
    (hH : ∀ l ∈ linesOf s.data, headerSmall (linesOf s.data).length l = true)
    (blk : ChangeBlock) (h : blk ∈ parse_patch s) :
    blk.start_line ≤ blk.end_line ∧
    List.Chain' (· < ·) (anchorsOf blk.deletion_groups) ∧
    List.Chain' (· ≠ ·) (anchorsOf blk.deletion_groups) := by
  obtain ⟨-, -, -, -, h1, h2⟩ := parseLines_goodBounds (linesOf s.data) hH blk h
  exact ⟨h1, h2, List.Chain'.imp (fun a b hab => Nat.ne_of_lt hab) h2⟩

theorem parse_patch_bounds_and_anchors_witness :
    (∀ l ∈ linesOf ("@@ -2,4 +2,4 @@\n keep\n-x\n+y\n-z\n keep2").data,
        headerSmall
          (linesOf ("@@ -2,4 +2,4 @@\n keep\n-x\n+y\n-z\n keep2").data).length
          l = true) ∧
    ((⟨3, 4, ChangeKind.change, [3], [3], [⟨3, ["x"], [3]⟩, ⟨4, ["z"], [4]⟩],
        [⟨3, 3⟩, ⟨4, 4⟩]⟩ : ChangeBlock).start_line ≤
      (⟨3, 4, ChangeKind.change, [3], [3], [⟨3, ["x"], [3]⟩, ⟨4, ["z"], [4]⟩],
        [⟨3, 3⟩, ⟨4, 4⟩]⟩ : ChangeBlock).end_line ∧
    List.Chain' (· < ·) (anchorsOf [⟨3, ["x"], [3]⟩, ⟨4, ["z"], [4]⟩]) ∧
    List.Chain' (· ≠ ·) (anchorsOf [⟨3, ["x"], [3]⟩, ⟨4, ["z"], [4]⟩])) :=
  ⟨by decide,
   parse_patch_bounds_and_anchors "@@ -2,4 +2,4 @@\n keep\n-x\n+y\n-z\n keep2"
     (by decide)
     ⟨3, 4, ChangeKind.change, [3], [3], [⟨3, ["x"], [3]⟩, ⟨4, ["z"], [4]⟩],
       [⟨3, 3⟩, ⟨4, 4⟩]⟩ (by decide)⟩

/-- C6: evaluating the parser on a whole-file-deletion hunk whose header
carries a `+0,0` new-side span.  Contrary to the 1-indexing documented for
every field, the emitted block has `start_line = end_line = 0`, its
deletion group is anchored at line 0, and both `old_to_new` entries map to
`new_line = 0`. -/
theorem zero_new_start_zero_line_numbers :
    parse_patch "@@ -1,2 +0,0 @@\n-a\n-b" =
      [⟨0, 0, ChangeKind.delete, [], [], [⟨0, ["a", "b"], [1, 2]⟩],
        [⟨1, 0⟩, ⟨2, 0⟩]⟩] := by decide

/-- C5 counterexample: inside a hunk body, the line `--x` is treated as a
deletion with content `-x` and advances the old-file counter: the following
deletion `-y` is recorded at old line 2, and both deletions appear in the
block, contradicting the claim that a `--` line contributes no deletion
event and leaves the old counter unchanged. -/
theorem double_dash_deletion_counterexample :
    (parse_patch "@@ -1,3 +1,3 @@\n--x\n-y\n z").map
        (fun blk => blk.deletion_groups.map
          (fun g => (g.old_lines, g.old_line_numbers))) =
      [[(["-x", "y"], [1, 2])]] := by decide

/-- C5 (amended): within a hunk body every line starting with `-` —
including lines starting with `--` — is classified as a deletion whose
content is everything after the first `-`; it contributes exactly one
deletion event and advances the old-file counter by one modulo 2^32: one
greater whenever the increment stays below 2^32, while at 4294967295 the
`u32` counter wraps to 0 (release build; a debug build panics). -/
theorem dash_line_always_deletion :
    (∀ bs n o b ic rest,
      stepLine (bs, ParseState.inside n o b ic) ('-' :: rest) =
        (bs, ParseState.inside n (u32succ o) (delStep n o (String.mk rest) b) true)) ∧
    (∀ bs n o b ic rest, o + 1 < 4294967296 →
      stepLine (bs, ParseState.inside n o b ic) ('-' :: rest) =
        (bs, ParseState.inside n (o + 1) (delStep n o (String.mk rest) b) true)) ∧
    (∀ n o c b, sumOldLines (delStep n o c b).deletion_groups =
        sumOldLines b.deletion_groups + 1) ∧
    ((parse_patch "@@ -1,3 +1,3 @@\n--x\n-y\n z").map
        (fun blk => anchorsOf blk.deletion_groups) = [[1]]) := by
  refine ⟨?_, ?_, ?_, by decide⟩
  · intro bs n o b ic rest
    rfl
  · intro bs n o b ic rest h
    have hs : u32succ o = o + 1 := by
      unfold u32succ
      exact Nat.mod_eq_of_lt h
    show (bs, ParseState.inside n (u32succ o) (delStep n o (String.mk rest) b) true) =
      (bs, ParseState.inside n (o + 1) (delStep n o (String.mk rest) b) true)
    rw [hs]
  · intro n o c b
    have hp := (ensureInited_proj b n).2.2.1
    show sumOldLines (pushDeletion n c o (b.ensureInited n).deletion_groups) = _
    rw [hp, sumOldLines_pushDeletion]

theorem dash_line_always_deletion_witness :
    (7 + 1 < 4294967296) ∧
    stepLine ([], ParseState.inside 3 7 emptyBuilder false) ('-' :: 'x' :: []) =
      ([], ParseState.inside 3 8 (delStep 3 7 (String.mk ('x' :: [])) emptyBuilder)
        true) :=
  ⟨by decide,
   dash_line_always_deletion.2.1 [] 3 7 emptyBuilder false ('x' :: [])
     (by decide)⟩

/-- C1 counterexample: the claim's clause that a deletion following an
addition starts a group whose anchor is ONE GREATER fails at the `u32`
boundary: with a header seeding the new-file counter at 4294967295, the
addition wraps the pointer to 0 (as the release binary does; a debug build
panics), so the second deletion group's anchor is 0, not 4294967295 + 1. -/
theorem deletion_anchor_wrap_counterexample :
    (parse_patch "@@ -1 +4294967295 @@\n-a\n+b\n-c").map
        (fun blk => anchorsOf blk.deletion_groups) = [[4294967295, 0]] ∧
    (0 : Nat) ≠ 4294967295 + 1 := by decide

/-- C1 (amended): deletion grouping policy.  (i) On the claim's single-hunk
input `@@ -1,4 +1,4 @@ / line1 / -old1 / +new1 / -old2 / line2`,
`parse_patch` yields exactly one block with exactly two deletion groups
anchored at 2 and 3.  (ii) A deletion whose anchor equals the last group's
anchor is absorbed into that group (no new anchor appears); a deletion
with a different anchor starts a new group carrying that anchor.  (iii) An
addition advances the new-file pointer by exactly one whenever the
incremented value stays below 2^32 — at 4294967295 the `u32` pointer wraps
to 0 instead — while a deletion leaves the pointer unchanged, so away from
the wrap the deletion after an addition anchors one line further down. -/
theorem parse_patch_deletion_grouping :
    ((parse_patch "@@ -1,4 +1,4 @@\n line1\n-old1\n+new1\n-old2\n line2").map
        (fun blk => anchorsOf blk.deletion_groups) = [[2, 3]]) ∧
    (∀ gs a x y, (anchorsOf gs).getLast? = some a →
        anchorsOf (pushDeletion a x y gs) = anchorsOf gs) ∧
    (∀ gs a c x y, (anchorsOf gs).getLast? = some a → c ≠ a →
        anchorsOf (pushDeletion c x y gs) = anchorsOf gs ++ [c]) ∧
    (∀ bs n o b ic d rest, n + 1 < 4294967296 →
        newPtr ((stepLine (bs, ParseState.inside n o b ic) ('+' :: d :: rest)).2) =
          some (n + 1)) ∧
    (∀ bs o b ic d rest,
        newPtr ((stepLine (bs, ParseState.inside 4294967295 o b ic)
          ('+' :: d :: rest)).2) = some 0) ∧
    (∀ bs n o b ic rest,
        newPtr ((stepLine (bs, ParseState.inside n o b ic) ('-' :: rest)).2) =
          some n) := by
  refine ⟨by decide, ?_, ?_, ?_, ?_, ?_⟩
  · intro gs a x y hl
    rw [anchorsOf_pushDeletion, if_pos hl]
  · intro gs a c x y hl hne
    rw [anchorsOf_pushDeletion, if_neg ?_]
    intro hc
    rw [hl] at hc
    exact hne (Option.some.inj hc).symm
  · intro bs n o b ic d rest h
    show some (u32succ n) = some (n + 1)
    unfold u32succ
    rw [Nat.mod_eq_of_lt h]
  · intro bs o b ic d rest
    rfl
  · intro bs n o b ic rest
    rfl

theorem parse_patch_deletion_grouping_witness :
    (anchorsOf (pushDeletion 2 "u" 9 [⟨2, ["t"], [5]⟩]) =
        anchorsOf [⟨2, ["t"], [5]⟩]) ∧
    (anchorsOf (pushDeletion 3 "v" 9 [⟨2, ["t"], [5]⟩]) =
        anchorsOf [⟨2, ["t"], [5]⟩] ++ [3]) ∧
    newPtr ((stepLine ([], ParseState.inside 5 1 emptyBuilder false)
        ('+' :: 'q' :: [])).2) = some 6 :=
  ⟨parse_patch_deletion_grouping.2.1 [⟨2, ["t"], [5]⟩] 2 "u" 9 (by decide),
   parse_patch_deletion_grouping.2.2.1 [⟨2, ["t"], [5]⟩] 2 3 "v" 9 (by decide)
     (by decide),
   parse_patch_deletion_grouping.2.2.2.1 [] 5 1 emptyBuilder false 'q' []
     (by decide)⟩

/-- A hunk-body line the source cannot classify: not a hunk/file boundary,
not the no-newline marker, not starting with `-`, `+` or a space, and not
empty. -/
def unclassified (l : List Char) : Bool :=
  !isPre (chars "@@") l && !isPre (chars "diff ") l &&
  !isPre (chars "\\ No newline") l &&
  (match l with
   | [] => false
   | c :: _ => c != '-' && c != '+' && c != ' ')

/-- C7 counterexample: inserting the malformed hunk header `@@x` in the
middle of a hunk body is not inert: the parse of
`@@ -1,3 +1,3 @@ / -a / @@x / -b / c` flushes the open block at `@@x` and
never processes `-b` (one deleted line in total), while the same input
without the malformed line accumulates both deletions (two deleted lines),
so the malformed line did modify and flush the in-progress block. -/
theorem malformed_header_not_inert_counterexample :
    (parse_patch "@@ -1,3 +1,3 @@\n-a\n@@x\n-b\n c").map blockDeletions = [1] ∧
    (parse_patch "@@ -1,3 +1,3 @@\n-a\n-b\n c").map blockDeletions = [2] ∧
    parse_patch "@@ -1,3 +1,3 @@\n-a\n@@x\n-b\n c" ≠
      parse_patch "@@ -1,3 +1,3 @@\n-a\n-b\n c" := by decide

/-- C7 (amended): (i) outside a hunk body, any line that fails the hunk
header regex is skipped with no state change; (ii) inside a hunk body, a
line that matches no classification (rule 8 lines such as `index ...`) is
inert: it changes neither counter, leaves the builder untouched and emits
nothing; (iii) but a line starting with `@@` that fails the header regex
(and likewise any `diff `-prefixed line) terminates the hunk body: the open
block is flushed and scanning resumes looking for the next valid header.
The parse itself is total and never aborts. -/
theorem unrecognized_lines_inert :
    (∀ bs l, matchHunkHeader l = none →
        stepLine (bs, ParseState.outside) l = (bs, ParseState.outside)) ∧
    (∀ bs n o b ic l, unclassified l = true →
        stepLine (bs, ParseState.inside n o b ic) l =
          (bs, ParseState.inside n o b ic)) ∧
    (∀ bs n o b ic l, isPre (chars "@@") l = true → matchHunkHeader l = none →
        stepLine (bs, ParseState.inside n o b ic) l =
          (flushInto bs b, ParseState.outside)) := by
  refine ⟨?_, ?_, ?_⟩
  · intro bs l h
    simp [stepLine, h]
  · intro bs n o b ic l h
    simp only [unclassified, Bool.and_eq_true, Bool.not_eq_true'] at h
    obtain ⟨⟨⟨h1, h2⟩, h3⟩, h4⟩ := h
    simp only [stepLine, h1, h2, h3, Bool.or_self, Bool.false_eq_true, if_false]
    cases l with
    | nil => simp at h4
    | cons c ls =>
      simp only [bne_iff_ne, ne_eq, Bool.and_eq_true] at h4
      obtain ⟨⟨hc1, hc2⟩, hc3⟩ := h4
      split
      next heq =>
        injection heq with hh ht
        exact absurd hh hc1
      next heq =>
        injection heq with hh ht
        exact absurd hh hc2
      next heq =>
        injection heq with hh ht
        exact absurd hh hc3
      next heq => simp at heq
      next => rfl
  · intro bs n o b ic l hpre hm
    simp [stepLine, hpre, hm]

theorem unrecognized_lines_inert_witness :
    (stepLine ([], ParseState.outside) (chars "index abc..def 100644") =
        ([], ParseState.outside)) ∧
    (stepLine ([], ParseState.inside 4 7 emptyBuilder false)
        (chars "index abc..def 100644") =
      ([], ParseState.inside 4 7 emptyBuilder false)) ∧
    (stepLine ([], ParseState.inside 4 7 emptyBuilder false) (chars "@@ bogus") =
      (flushInto [] emptyBuilder, ParseState.outside)) :=
  ⟨unrecognized_lines_inert.1 [] (chars "index abc..def 100644") (by decide),
   unrecognized_lines_inert.2.1 [] 4 7 emptyBuilder false
     (chars "index abc..def 100644") (by decide),
   unrecognized_lines_inert.2.2 [] 4 7 emptyBuilder false (chars "@@ bogus")
     (by decide) (by decide)⟩

/-- Two lines are count-equivalent when they are equal, or both match the
hunk-header regex with the same old-start and new-start captures (so they
may differ arbitrarily in the count fields, which the parser never reads). -/
def countEquiv (l1 l2 : List Char) : Bool :=
  l1 == l2 ||
    ((matchHunkHeader l1).isSome && decide (matchHunkHeader l1 = matchHunkHeader l2))

/-- Pointwise count-equivalence of two line lists. -/
def countEquivLines : List (List Char) → List (List Char) → Bool
  | [], [] => true
  | a :: as, c :: cs => countEquiv a c && countEquivLines as cs
  | _, _ => false

theorem matchHunkHeader_starts (l : List Char) (p : Nat × Nat)
    (h : matchHunkHeader l = some p) : isPre (chars "@@") l = true := by
  unfold matchHunkHeader at h
  split at h
  · simp [isPre, chars]
  · exact absurd h (by simp)

theorem stepLine_countEquiv (s : List ChangeBlock × ParseState) (l1 l2 : List Char)
    (h : countEquiv l1 l2 = true) : stepLine s l1 = stepLine s l2 := by
  simp only [countEquiv, Bool.or_eq_true, beq_iff_eq, Bool.and_eq_true,
    Option.isSome_iff_exists, decide_eq_true_eq] at h
  rcases h with h | ⟨⟨p, hp⟩, heq⟩
  · subst h; rfl
  · have hm2 : matchHunkHeader l2 = some p := by rw [← heq, hp]
    have hs1 := matchHunkHeader_starts l1 p hp
    have hs2 := matchHunkHeader_starts l2 p hm2
    obtain ⟨bs, st⟩ := s
    cases st with
    | outside => simp only [stepLine, hp, hm2]
    | inside n o b ic =>
      simp only [stepLine, hs1, hs2, Bool.true_or, if_true, hp, hm2]

/-- C10: the output of `parse_patch` is independent of the count fields of
every hunk header: on any two inputs whose line lists are pointwise
count-equivalent (equal lines, except that hunk headers may carry arbitrary
or omitted counts as long as the two start values agree), `parse_patch`
returns identical block lists. -/
theorem parse_patch_ignores_hunk_counts (s1 s2 : String)
    (h : countEquivLines (linesOf s1.data) (linesOf s2.data) = true) :
    parse_patch s1 = parse_patch s2 := by
  suffices hgen : ∀ (ls1 ls2 : List (List Char)) st,
      countEquivLines ls1 ls2 = true →
      ls1.foldl stepLine st = ls2.foldl stepLine st by
    unfold parse_patch parsePatchChars parseLines
    rw [hgen _ _ _ h]
  intro ls1
  induction ls1 with
  | nil =>
    intro ls2 st h2
    cases ls2 with
    | nil => rfl
    | cons c cs => simp [countEquivLines] at h2
  | cons a as ih =>
    intro ls2 st h2
    cases ls2 with
    | nil => simp [countEquivLines] at h2
    | cons c cs =>
      simp only [countEquivLines, Bool.and_eq_true] at h2
      simp only [List.foldl_cons]
      rw [stepLine_countEquiv st a c h2.1]
      exact ih cs _ h2.2

theorem parse_patch_ignores_hunk_counts_witness :
    (countEquivLines (linesOf ("@@ -1,4 +1,4 @@\n line1\n+x\n line2").data)
        (linesOf ("@@ -1 +1,999 @@\n line1\n+x\n line2").data) = true) ∧
    parse_patch "@@ -1,4 +1,4 @@\n line1\n+x\n line2" =
      parse_patch "@@ -1 +1,999 @@\n line1\n+x\n line2" :=
  ⟨by decide,
   parse_patch_ignores_hunk_counts "@@ -1,4 +1,4 @@\n line1\n+x\n line2"
     "@@ -1 +1,999 @@\n line1\n+x\n line2" (by decide)⟩

theorem add_del_disjoint (l : List Char) (h : isAddLine l = true) :
    isDelLine l = false := by
  unfold isAddLine at h
  split at h
  · rfl
  · exact absurd h (by simp)

theorem matchStatus_hunk (l : List Char) (h : isPre (chars "@@") l = true) :
    matchStatus l = none := by
  cases l with
  | nil => simp [isPre, chars] at h
  | cons c cs =>
    have hc : c = '@' := by
      simp only [chars, isPre, Bool.and_eq_true, beq_iff_eq] at h
      exact h.1.symm
    rw [hc]
    rfl

theorem parseGitDiffAux_nil (fuel : Nat) : parseGitDiffAux fuel [] = [] := by
  cases fuel <;> rfl

theorem collectPatch_spec (ls : List (List Char))
    (h : ∀ l ∈ ls, isPre (chars "diff --git") l = false) :
    collectPatch ls = (ls, ls.countP isAddLine, ls.countP isDelLine, []) := by
  induction ls with
  | nil => rfl
  | cons l rest ih =>
    have hl : isPre (chars "diff --git") l = false := h l (List.mem_cons_self l rest)
    have ih2 := ih (fun x hx => h x (List.mem_cons_of_mem l hx))
    simp only [collectPatch, hl, Bool.false_eq_true, if_false, ih2]
    by_cases ha : isAddLine l = true
    · have hd := add_del_disjoint l ha
      simp [ha, hd, List.countP_cons]
    · by_cases hd : isDelLine l = true
      · simp [ha, hd, List.countP_cons]
      · simp [ha, hd, List.countP_cons]

theorem scanStatus_spec (ls : List (List Char)) (st : FileStatus)
    (h : ∀ l ∈ ls, isPre (chars "diff --git") l = false) :
    scanStatus st ls =
      ((ls.takeWhile (fun l => !isPre (chars "@@") l)).foldl statusUpd st,
        ls.dropWhile (fun l => !isPre (chars "@@") l)) := by
  induction ls generalizing st with
  | nil => rfl
  | cons l rest ih =>
    have hl : isPre (chars "diff --git") l = false := h l (List.mem_cons_self l rest)
    have ih2 := ih (statusUpd st l) (fun x hx => h x (List.mem_cons_of_mem l hx))
    simp only [scanStatus, hl, Bool.false_eq_true, if_false]
    by_cases h2 : isPre (chars "@@") l = true
    · have hms : statusUpd st l = st := by
        unfold statusUpd
        rw [matchStatus_hunk l h2]
      simp [h2, hms, List.takeWhile_cons, List.dropWhile_cons]
    · have h2f : isPre (chars "@@") l = false := by
        cases hx : isPre (chars "@@") l
        · rfl
        · exact absurd hx h2
      simp [h2f, List.takeWhile_cons, List.dropWhile_cons, ih2]

theorem mem_of_mem_dropWhile {α : Type} (p : α → Bool) :
    ∀ (ls : List α) (x : α), x ∈ ls.dropWhile p → x ∈ ls
  | [], _, h => h
  | a :: as, x, h => by
    rw [List.dropWhile_cons] at h
    split at h
    · exact List.mem_cons_of_mem a (mem_of_mem_dropWhile p as x h)
    · exact h

/-- Behaviour of `parse_git_diff` on a single file section: the status is
the fold of the status markers seen before the first hunk header, the
`additions`/`deletions` tallies count the `^\+[^+]` / `^-[^-]` lines from
the first hunk header on, and the file is kept only if its patch produced
change blocks. -/
theorem parseGitDiffLines_single (hdr : List Char) (p : String)
    (body : List (List Char)) (hh : matchFileHeader hdr = some p)
    (hb : ∀ l ∈ body, isPre (chars "diff --git") l = false) :
    parseGitDiffLines (hdr :: body) =
      if (parsePatchChars (List.intercalate ['\n']
            (body.dropWhile (fun l => !isPre (chars "@@") l)))).isEmpty then []
      else [⟨p,
        (body.takeWhile (fun l => !isPre (chars "@@") l)).foldl statusUpd
          FileStatus.modified,
        (body.dropWhile (fun l => !isPre (chars "@@") l)).countP isAddLine,
        (body.dropWhile (fun l => !isPre (chars "@@") l)).countP isDelLine,
        none,
        parsePatchChars (List.intercalate ['\n']
          (body.dropWhile (fun l => !isPre (chars "@@") l)))⟩] := by
  have hb2 : ∀ l ∈ body.dropWhile (fun l => !isPre (chars "@@") l),
      isPre (chars "diff --git") l = false :=
    fun l hl => hb l (mem_of_mem_dropWhile _ body l hl)
  unfold parseGitDiffLines
  simp only [List.length_cons]
  unfold parseGitDiffAux
  rw [hh]
  simp only [scanStatus_spec body FileStatus.modified hb,
    collectPatch_spec _ hb2, parseGitDiffAux_nil]

/-- C3 counterexample: a file section whose hunk adds one empty line,
written as a bare `+`.  Among the section's raw lines exactly one starts
with `+` without being the `+++` path header, yet the emitted ReviewFile
reports `additions = 0`: the `^\+[^+]` regex requires a non-`+` character
after the marker, so a bare `+` is not counted. -/
theorem bare_plus_line_not_counted :
    ([chars "index 1..2 100644", chars "--- a/f", chars "+++ b/f",
      chars "@@ -1,1 +1,2 @@", chars " line1", chars "+"].countP
        (fun l => decide (l.head? = some '+') && !isPre (chars "+++") l) = 1) ∧
    ((parse_git_diff
        "diff --git a/f b/f\nindex 1..2 100644\n--- a/f\n+++ b/f\n@@ -1,1 +1,2 @@\n line1\n+").map
        (fun f => (f.additions, f.deletions)) = [(0, 0)]) := by decide

/-- C3 (amended): for every emitted ReviewFile of a file section, the
`additions` field counts exactly the section lines, from the first hunk
header on, that match `^\+[^+]` — a `+` followed by at least one non-`+`
character — and `deletions` dually counts the `^-[^-]` lines; a bare `+`
or `-` (an added/deleted empty line) and `++`/`--`-prefixed lines are not
counted, while the `+++`/`---` path headers lie before the first hunk
header and are never reached by the counter. -/
theorem parse_git_diff_counts (hdr : List Char) (p : String)
    (body : List (List Char)) (hh : matchFileHeader hdr = some p)
    (hb : ∀ l ∈ body, isPre (chars "diff --git") l = false) :
    ∀ f ∈ parseGitDiffLines (hdr :: body),
      f.additions =
        (body.dropWhile (fun l => !isPre (chars "@@") l)).countP isAddLine ∧
      f.deletions =
        (body.dropWhile (fun l => !isPre (chars "@@") l)).countP isDelLine := by
  intro f hf
  rw [parseGitDiffLines_single hdr p body hh hb] at hf
  split at hf
  · exact absurd hf (List.not_mem_nil f)
  · simp only [List.mem_singleton] at hf
    subst hf
    exact ⟨rfl, rfl⟩

theorem parse_git_diff_counts_witness :
    (⟨"f.rs", FileStatus.modified, 1, 1, none,
        [⟨2, 2, ChangeKind.change, [2], [2], [⟨2, ["x"], [2]⟩], [⟨2, 2⟩]⟩]⟩ :
      ReviewFile).additions =
      ([chars "index 1..2 100644", chars "--- a/f.rs", chars "+++ b/f.rs",
        chars "@@ -1,2 +1,2 @@", chars " a", chars "-x",
        chars "+y"].dropWhile (fun l => !isPre (chars "@@") l)).countP isAddLine ∧
    (⟨"f.rs", FileStatus.modified, 1, 1, none,
        [⟨2, 2, ChangeKind.change, [2], [2], [⟨2, ["x"], [2]⟩], [⟨2, 2⟩]⟩]⟩ :
      ReviewFile).deletions =
      ([chars "index 1..2 100644", chars "--- a/f.rs", chars "+++ b/f.rs",
        chars "@@ -1,2 +1,2 @@", chars " a", chars "-x",
        chars "+y"].dropWhile (fun l => !isPre (chars "@@") l)).countP isDelLine :=
  parse_git_diff_counts (chars "diff --git a/f.rs b/f.rs") "f.rs"
    [chars "index 1..2 100644", chars "--- a/f.rs", chars "+++ b/f.rs",
      chars "@@ -1,2 +1,2 @@", chars " a", chars "-x", chars "+y"]
    (by decide) (by decide)
    ⟨"f.rs", FileStatus.modified, 1, 1, none,
      [⟨2, 2, ChangeKind.change, [2], [2], [⟨2, ["x"], [2]⟩], [⟨2, 2⟩]⟩]⟩
    (by decide)

/-- C4 counterexample: a file section carrying a `new file` marker and then
a `deleted file` marker before its first hunk.  First-match-wins would
report Added; the code reports Deleted, because every status-marker line
seen before the first hunk header overwrites the status. -/
theorem status_not_first_marker_counterexample :
    ((parse_git_diff
        "diff --git a/f b/f\nnew file mode 100644\ndeleted file mode 100644\n@@ -1,1 +1,2 @@\n line1\n+x").map
        (fun f => f.status) = [FileStatus.deleted]) ∧
    FileStatus.deleted ≠ FileStatus.added := by decide

/-- C4 (amended): the status of an emitted ReviewFile is the result of
folding all status-marker lines that precede the first hunk header, each
marker overwriting the current status — so with several markers the LAST
one before the first hunk header wins — and marker lines at or after the
first hunk header have no effect. -/
theorem parse_git_diff_status_last_marker (hdr : List Char) (p : String)
    (body : List (List Char)) (hh : matchFileHeader hdr = some p)
    (hb : ∀ l ∈ body, isPre (chars "diff --git") l = false) :
    ∀ f ∈ parseGitDiffLines (hdr :: body),
      f.status = (body.takeWhile (fun l => !isPre (chars "@@") l)).foldl
        statusUpd FileStatus.modified := by
  intro f hf
  rw [parseGitDiffLines_single hdr p body hh hb] at hf
  split at hf
  · exact absurd hf (List.not_mem_nil f)
  · simp only [List.mem_singleton] at hf
    subst hf
    rfl

theorem parse_git_diff_status_last_marker_witness :
    (⟨"g.rs", FileStatus.deleted, 1, 0, none,
        [⟨1, 1, ChangeKind.add, [1], [], [], []⟩]⟩ : ReviewFile).status =
      ([chars "new file mode 100644", chars "deleted file mode 100644",
        chars "@@ -1 +1 @@", chars "+x"].takeWhile
          (fun l => !isPre (chars "@@") l)).foldl statusUpd FileStatus.modified :=
  parse_git_diff_status_last_marker (chars "diff --git a/g.rs b/g.rs") "g.rs"
    [chars "new file mode 100644", chars "deleted file mode 100644",
      chars "@@ -1 +1 @@", chars "+x"]
    (by decide) (by decide)
    ⟨"g.rs", FileStatus.deleted, 1, 0, none,
      [⟨1, 1, ChangeKind.add, [1], [], [], []⟩]⟩
    (by decide)
